import Mathlib

/-!
Shallow embedding of the prototype-js reactive rendering engine
(`src/src/lib.ts`, and the revised `listComponent` in `src/unnamed/part_000`).

Reactive core
=============
The source keeps one module-global mutable slot `activeEffect`, and each
signal created by `createSignal` owns a mutable `value` and a `Set` of
subscriber effects.  We embed this as an explicit state record `RState`:
cells are addressed by natural numbers, effects are addressed by natural
numbers, and a registry `reg : Nat -> List Nat` gives each effect's body as
the sequence of cell reads it performs during one invocation (the effects
relevant to the claims only read cells; they do not write cells).  The
`log` field records every effect invocation, so "the effect is re-invoked"
is observable as a log entry.  JS `Set.add` keeps insertion order and
deduplicates, which `addSub` mirrors.
-/

structure RState where
  activeEffect : Option Nat
  value : Nat → Int
  subs : Nat → List Nat
  log : List Nat

/-- JS `Set.add`: append if not already present (identity de-duplication). -/
def addSub (e : Nat) (l : List Nat) : List Nat :=
  if e ∈ l then l else l ++ [e]

/-- `createSignal`'s inner `get` (the read path): if there is an active
effect, register it as a subscriber of the cell being read. -/
def readCell (c : Nat) (s : RState) : RState :=
  match s.activeEffect with
  | some e => { s with subs := fun c2 => if c2 = c then addSub e (s.subs c2) else s.subs c2 }
  | none => s

/-- Run an effect body: the sequence of cell reads it performs (the reads
made anywhere in the dynamic call tree of the effect function). -/
def runReads (cs : List Nat) (s : RState) : RState :=
  cs.foldl (fun s2 c => readCell c s2) s

/-- One invocation of effect `e`: record the invocation and perform the
reads of its body. -/
def invokeEffect (reg : Nat → List Nat) (e : Nat) (s : RState) : RState :=
  runReads (reg e) { s with log := s.log ++ [e] }

/-- `createEffect(fn)`: set the active-effect slot, invoke `fn` once, then
clear the slot. -/
def createEffect (reg : Nat → List Nat) (e : Nat) (s : RState) : RState :=
  let s1 := { s with activeEffect := some e }
  let s2 := invokeEffect reg e s1
  { s2 with activeEffect := none }

/-- `createSignal`'s inner `set`: assign the new value (literal, or a
function of the previous value), then invoke every registered subscriber in
subscriber-set iteration order.  (The claims exercise `set` outside of any
effect registration, where iterating a snapshot of the subscriber set
coincides with JS's live `Set.forEach`, because read-only subscriber bodies
cannot change any subscriber set while the slot is clear.) -/
def setCell (reg : Nat → List Nat) (c : Nat) (v : Int ⊕ (Int → Int)) (s : RState) : RState :=
  let nv : Int := match v with
    | Sum.inl x => x
    | Sum.inr f => f (s.value c)
  let s1 := { s with value := fun c2 => if c2 = c then nv else s.value c2 }
  (s1.subs c).foldl (fun s2 e => invokeEffect reg e s2) s1

/-- Writing a sequence of cells once each, in order, with the same literal
value. -/
def writeSeq (reg : Nat → List Nat) (cs : List Nat) (v : Int) (s : RState) : RState :=
  cs.foldl (fun s2 c => setCell reg c (Sum.inl v) s2) s

/-! Helper lemmas about the reactive core. -/

lemma addSub_mem (e : Nat) (l : List Nat) : e ∈ addSub e l := by
  unfold addSub
  by_cases h : e ∈ l
  · simp [h]
  · simp [h]

lemma addSub_idem (e : Nat) (l : List Nat) : addSub e (addSub e l) = addSub e l := by
  unfold addSub
  by_cases h : e ∈ l
  · simp [h]
  · simp [h]

lemma addSub_nil (e : Nat) : addSub e [] = [e] := by
  simp [addSub]

lemma readCell_activeEffect (c : Nat) (s : RState) :
    (readCell c s).activeEffect = s.activeEffect := by
  cases h : s.activeEffect <;> simp [readCell, h]

lemma readCell_log (c : Nat) (s : RState) : (readCell c s).log = s.log := by
  cases h : s.activeEffect <;> simp [readCell, h]

lemma readCell_value (c : Nat) (s : RState) : (readCell c s).value = s.value := by
  cases h : s.activeEffect <;> simp [readCell, h]

lemma readCell_of_none (c : Nat) (s : RState) (h : s.activeEffect = none) :
    readCell c s = s := by
  simp [readCell, h]

lemma runReads_of_none (cs : List Nat) (s : RState) (h : s.activeEffect = none) :
    runReads cs s = s := by
  induction cs generalizing s with
  | nil => rfl
  | cons c cs ih =>
      show runReads cs (readCell c s) = s
      rw [readCell_of_none c s h, ih s h]

lemma runReads_activeEffect (cs : List Nat) (s : RState) :
    (runReads cs s).activeEffect = s.activeEffect := by
  induction cs generalizing s with
  | nil => rfl
  | cons c cs ih =>
      show (runReads cs (readCell c s)).activeEffect = s.activeEffect
      rw [ih, readCell_activeEffect]

lemma runReads_log (cs : List Nat) (s : RState) : (runReads cs s).log = s.log := by
  induction cs generalizing s with
  | nil => rfl
  | cons c cs ih =>
      show (runReads cs (readCell c s)).log = s.log
      rw [ih, readCell_log]

lemma runReads_value (cs : List Nat) (s : RState) : (runReads cs s).value = s.value := by
  induction cs generalizing s with
  | nil => rfl
  | cons c cs ih =>
      show (runReads cs (readCell c s)).value = s.value
      rw [ih, readCell_value]

lemma readCell_subs_of_some (c c2 : Nat) (s : RState) (e : Nat)
    (h : s.activeEffect = some e) :
    (readCell c s).subs c2 = if c2 = c then addSub e (s.subs c2) else s.subs c2 := by
  simp [readCell, h]

lemma runReads_subs_of_some (cs : List Nat) (s : RState) (e : Nat) (c : Nat)
    (h : s.activeEffect = some e) :
    (runReads cs s).subs c = if c ∈ cs then addSub e (s.subs c) else s.subs c := by
  induction cs generalizing s with
  | nil => simp [runReads]
  | cons c0 cs ih =>
      have hstep : runReads (c0 :: cs) s = runReads cs (readCell c0 s) := rfl
      have h2 : (readCell c0 s).activeEffect = some e := by
        rw [readCell_activeEffect, h]
      rw [hstep, ih (readCell c0 s) h2]
      rw [readCell_subs_of_some c0 c s e h]
      by_cases hc0 : c = c0
      · by_cases hcs : c ∈ cs
        · simp [hc0, hcs, addSub_idem]
        · simp [hc0, hcs, addSub_idem]
      · by_cases hcs : c ∈ cs
        · simp [hc0, hcs]
        · simp [hc0, hcs]

lemma invokeEffect_of_none (reg : Nat → List Nat) (e : Nat) (s : RState)
    (h : s.activeEffect = none) :
    invokeEffect reg e s = { s with log := s.log ++ [e] } := by
  unfold invokeEffect
  exact runReads_of_none _ _ h

lemma fanout_of_none (reg : Nat → List Nat) (es : List Nat) (s : RState)
    (h : s.activeEffect = none) :
    es.foldl (fun s2 e => invokeEffect reg e s2) s = { s with log := s.log ++ es } := by
  induction es generalizing s with
  | nil => simp
  | cons e es ih =>
      have hstep : (e :: es).foldl (fun s2 e2 => invokeEffect reg e2 s2) s
          = es.foldl (fun s2 e2 => invokeEffect reg e2 s2) (invokeEffect reg e s) := rfl
      rw [hstep, invokeEffect_of_none reg e s h]
      rw [ih { s with log := s.log ++ [e] } h]
      simp

lemma setCell_of_none (reg : Nat → List Nat) (c : Nat) (v : Int ⊕ (Int → Int))
    (s : RState) (h : s.activeEffect = none) :
    setCell reg c v s =
      { s with
        value := fun c2 => if c2 = c then
            (match v with
             | Sum.inl x => x
             | Sum.inr f => f (s.value c)) else s.value c2,
        log := s.log ++ s.subs c } := by
  unfold setCell
  exact fanout_of_none reg _ _ h

lemma createEffect_activeEffect (reg : Nat → List Nat) (e : Nat) (s : RState) :
    (createEffect reg e s).activeEffect = none := rfl

lemma createEffect_log (reg : Nat → List Nat) (e : Nat) (s : RState) :
    (createEffect reg e s).log = s.log ++ [e] := by
  unfold createEffect invokeEffect
  exact runReads_log _ _

lemma createEffect_subs (reg : Nat → List Nat) (e : Nat) (s : RState) (c : Nat) :
    (createEffect reg e s).subs c =
      if c ∈ reg e then addSub e (s.subs c) else s.subs c := by
  unfold createEffect invokeEffect
  exact runReads_subs_of_some _ _ e c rfl

lemma setCell_subs_of_none (reg : Nat → List Nat) (c : Nat) (v : Int ⊕ (Int → Int))
    (s : RState) (h : s.activeEffect = none) :
    (setCell reg c v s).subs = s.subs := by
  rw [setCell_of_none reg c v s h]

lemma setCell_log_of_none (reg : Nat → List Nat) (c : Nat) (v : Int ⊕ (Int → Int))
    (s : RState) (h : s.activeEffect = none) :
    (setCell reg c v s).log = s.log ++ s.subs c := by
  rw [setCell_of_none reg c v s h]

lemma setCell_activeEffect_of_none (reg : Nat → List Nat) (c : Nat)
    (v : Int ⊕ (Int → Int)) (s : RState) (h : s.activeEffect = none) :
    (setCell reg c v s).activeEffect = none := by
  rw [setCell_of_none reg c v s h]
  exact h

lemma writeSeq_log (reg : Nat → List Nat) (v : Int) (e : Nat) :
    ∀ (cs : List Nat) (s : RState), s.activeEffect = none →
      (∀ c ∈ cs, s.subs c = [e]) →
      (writeSeq reg cs v s).log = s.log ++ cs.map (fun _ => e) := by
  intro cs
  induction cs with
  | nil => intro s _ _; simp [writeSeq]
  | cons c cs ih =>
      intro s hact hsub
      have hstep : writeSeq reg (c :: cs) v s
          = writeSeq reg cs v (setCell reg c (Sum.inl v) s) := rfl
      rw [hstep]
      have hact2 := setCell_activeEffect_of_none reg c (Sum.inl v) s hact
      have hsubs2 := setCell_subs_of_none reg c (Sum.inl v) s hact
      have hsub2 : ∀ c2 ∈ cs, (setCell reg c (Sum.inl v) s).subs c2 = [e] := by
        intro c2 hc2
        rw [hsubs2]
        exact hsub c2 (List.mem_cons_of_mem c hc2)
      rw [ih (setCell reg c (Sum.inl v) s) hact2 hsub2]
      rw [setCell_log_of_none reg c (Sum.inl v) s hact]
      rw [hsub c (List.mem_cons_self c cs)]
      simp

/-- Shared concrete inputs used by the witnesses below: an effect whose body
reads cells 0, 1 and 2, and an initial state with no subscribers anywhere. -/
def regW : Nat → List Nat := fun _ => [0, 1, 2]

def rstateW : RState := ⟨none, fun _ => 0, fun _ => [], []⟩

/-- Claim C1: for every cell created by createSignal, a read performed while
an effect is active adds that effect to the cell's subscriber set, and every
subsequent write to the cell synchronously re-invokes the effect exactly once
per write; an effect that read N distinct cells during its run is re-invoked
N times in total when each of those cells is written once in sequence. -/
theorem signal_subscribe_fanout (reg : Nat → List Nat) (e : Nat) (s : RState) (v : Int)
    (hact : s.activeEffect = none)
    (hnd : (reg e).Nodup)
    (hsub : ∀ c ∈ reg e, s.subs c = []) :
    (∀ c ∈ reg e, (createEffect reg e s).subs c = [e]) ∧
    (∀ c ∈ reg e, (setCell reg c (Sum.inl v) (createEffect reg e s)).log
        = (createEffect reg e s).log ++ [e]) ∧
    (writeSeq reg (reg e) v (createEffect reg e s)).log
        = (createEffect reg e s).log ++ (reg e).map (fun _ => e) := by
  have hs1 : ∀ c ∈ reg e, (createEffect reg e s).subs c = [e] := by
    intro c hc
    rw [createEffect_subs, if_pos hc, hsub c hc, addSub_nil]
  refine ⟨hs1, ?_, ?_⟩
  · intro c hc
    rw [setCell_log_of_none reg c (Sum.inl v) _ (createEffect_activeEffect reg e s)]
    rw [hs1 c hc]
  · exact writeSeq_log reg v e (reg e) (createEffect reg e s)
      (createEffect_activeEffect reg e s) hs1

theorem signal_subscribe_fanout_witness :
    (rstateW.activeEffect = none ∧ (regW 5).Nodup ∧ (∀ c ∈ regW 5, rstateW.subs c = [])) ∧
    ((∀ c ∈ regW 5, (createEffect regW 5 rstateW).subs c = [5]) ∧
     (∀ c ∈ regW 5, (setCell regW c (Sum.inl 7) (createEffect regW 5 rstateW)).log
        = (createEffect regW 5 rstateW).log ++ [5]) ∧
     (writeSeq regW (regW 5) 7 (createEffect regW 5 rstateW)).log
        = (createEffect regW 5 rstateW).log ++ (regW 5).map (fun _ => 5)) :=
  ⟨⟨rfl, by decide, by decide⟩,
   signal_subscribe_fanout regW 5 rstateW 7 rfl (by decide) (by decide)⟩

/-- Claim C2: effect(fn) sets the process-wide active-effect slot, invokes fn
exactly once, clears the slot afterwards, and every cell read performed in
the dynamic call tree of that single invocation registers fn as a subscriber
of the cell that was read. -/
theorem effect_single_run_registers (reg : Nat → List Nat) (e : Nat) (s : RState) :
    (createEffect reg e s).activeEffect = none ∧
    (createEffect reg e s).log = s.log ++ [e] ∧
    (∀ c, c ∈ reg e → e ∈ (createEffect reg e s).subs c) := by
  refine ⟨createEffect_activeEffect reg e s, createEffect_log reg e s, ?_⟩
  intro c hc
  rw [createEffect_subs, if_pos hc]
  exact addSub_mem e (s.subs c)

theorem effect_single_run_registers_witness :
    (createEffect regW 5 rstateW).activeEffect = none ∧
    (createEffect regW 5 rstateW).log = rstateW.log ++ [5] ∧
    (1 ∈ regW 5 ∧ 5 ∈ (createEffect regW 5 rstateW).subs 1) :=
  ⟨(effect_single_run_registers regW 5 rstateW).1,
   (effect_single_run_registers regW 5 rstateW).2.1,
   by decide,
   (effect_single_run_registers regW 5 rstateW).2.2 1 (by decide)⟩

/-- Claim C10: when a writer re-invokes its subscriber effects during
fan-out, the active-effect slot is not set for those re-runs, so no cell read
performed during the fan-out adds any subscriber: a write leaves every
subscriber set exactly as it was, and the slot stays clear. -/
theorem fanout_registers_nothing (reg : Nat → List Nat) (c : Nat)
    (v : Int ⊕ (Int → Int)) (s : RState) (hact : s.activeEffect = none) :
    (setCell reg c v s).subs = s.subs ∧ (setCell reg c v s).activeEffect = none :=
  ⟨setCell_subs_of_none reg c v s hact, setCell_activeEffect_of_none reg c v s hact⟩

theorem fanout_registers_nothing_witness :
    rstateW.activeEffect = none ∧
    ((setCell regW 0 (Sum.inl 3) rstateW).subs = rstateW.subs ∧
     (setCell regW 0 (Sum.inl 3) rstateW).activeEffect = none) :=
  ⟨rfl, fanout_registers_nothing regW 0 (Sum.inl 3) rstateW rfl⟩

/-!
Dynamic class binding
=====================
`createComponent`'s `addClass` binds a producer-function through an effect
(`src/src/lib.ts` lines 114-146).  The effect body closes over the mutable
`referenceClass` (initially `undefined`) and the element's `classList`.  We
embed one element's class list together with that closure variable as
`ClassState`, and the effect body as `classStep`, applied to the value the
producer returned for this run (`none` embeds `undefined`/`null`).
`classList.add` appends a token only if absent and `classList.remove` drops
the token; JS truthiness makes an empty-string `referenceClass` falsy.
-/

structure ClassState where
  classList : List String
  referenceClass : Option String

/-- DOM `classList.remove r`. -/
def classRemove (r : String) (l : List String) : List String :=
  l.filter (fun c => c != r)

/-- One run of the dynamic-class effect body. -/
def classStep (s : ClassState) (v : Option String) : ClassState :=
  match v with
  | some c =>
      let l1 := if c ∈ s.classList then s.classList else s.classList ++ [c]
      let l2 := match s.referenceClass with
        | some r => if r ≠ "" ∧ c ≠ r then classRemove r l1 else l1
        | none => l1
      { classList := l2, referenceClass := some c }
  | none =>
      match s.referenceClass with
      | some r => if r ≠ "" then { s with classList := classRemove r s.classList } else s
      | none => s

/-- Successive runs of the effect, one per dependency change, each with the
string the producer returned for that run. -/
def runClasses (s : ClassState) (vs : List String) : ClassState :=
  vs.foldl (fun s2 v => classStep s2 (some v)) s

/-- Exactly one of the two classes is present. -/
def exactlyOneClass (x y : String) (l : List String) : Prop :=
  (x ∈ l ∧ y ∉ l) ∨ (y ∈ l ∧ x ∉ l)

def classInv (x y : String) (s : ClassState) : Prop :=
  (s.referenceClass = some x ∧ x ∈ s.classList ∧ y ∉ s.classList) ∨
  (s.referenceClass = some y ∧ y ∈ s.classList ∧ x ∉ s.classList)

lemma mem_classRemove (a r : String) (l : List String) :
    a ∈ classRemove r l ↔ a ∈ l ∧ a ≠ r := by
  simp [classRemove]

lemma classStep_some_none (s : ClassState) (c : String)
    (h : s.referenceClass = none) :
    classStep s (some c) =
      { classList := if c ∈ s.classList then s.classList else s.classList ++ [c],
        referenceClass := some c } := by
  unfold classStep
  rw [h]

lemma classStep_some_some (s : ClassState) (c r : String)
    (h : s.referenceClass = some r) :
    classStep s (some c) =
      { classList :=
          if r ≠ "" ∧ c ≠ r then
            classRemove r (if c ∈ s.classList then s.classList else s.classList ++ [c])
          else (if c ∈ s.classList then s.classList else s.classList ++ [c]),
        referenceClass := some c } := by
  unfold classStep
  rw [h]

lemma classStep_establishes (x y v : String) (init : List String)
    (hxy : x ≠ y) (hix : x ∉ init) (hiy : y ∉ init) (hv : v = x ∨ v = y) :
    classInv x y (classStep ⟨init, none⟩ (some v)) := by
  rw [classStep_some_none ⟨init, none⟩ v rfl]
  cases hv with
  | inl h =>
      rw [h]
      left
      refine ⟨rfl, ?_, ?_⟩
      · simp [hix]
      · simp [hix, hiy, Ne.symm hxy]
  | inr h =>
      rw [h]
      right
      refine ⟨rfl, ?_, ?_⟩
      · simp [hiy]
      · simp [hix, hiy, hxy]

lemma classStep_preserves (x y v : String) (s : ClassState)
    (hx : x ≠ "") (hy : y ≠ "") (hxy : x ≠ y)
    (hinv : classInv x y s) (hv : v = x ∨ v = y) :
    classInv x y (classStep s (some v)) := by
  cases hinv with
  | inl hl =>
      obtain ⟨href, hxm, hym⟩ := hl
      rw [classStep_some_some s v x href]
      cases hv with
      | inl h =>
          rw [h]
          left
          have hnc : ¬(x ≠ "" ∧ x ≠ x) := fun hc => hc.2 rfl
          refine ⟨rfl, ?_, ?_⟩
          · rw [if_pos hxm, if_neg hnc]
            exact hxm
          · rw [if_pos hxm, if_neg hnc]
            exact hym
      | inr h =>
          rw [h]
          right
          have hcond : x ≠ "" ∧ y ≠ x := ⟨hx, Ne.symm hxy⟩
          refine ⟨rfl, ?_, ?_⟩
          · rw [if_neg hym, if_pos hcond, mem_classRemove]
            exact ⟨by simp, Ne.symm hxy⟩
          · rw [if_neg hym, if_pos hcond]
            simp [mem_classRemove]
  | inr hr =>
      obtain ⟨href, hym, hxm⟩ := hr
      rw [classStep_some_some s v y href]
      cases hv with
      | inr h =>
          rw [h]
          right
          have hnc : ¬(y ≠ "" ∧ y ≠ y) := fun hc => hc.2 rfl
          refine ⟨rfl, ?_, ?_⟩
          · rw [if_pos hym, if_neg hnc]
            exact hym
          · rw [if_pos hym, if_neg hnc]
            exact hxm
      | inl h =>
          rw [h]
          left
          have hcond : y ≠ "" ∧ x ≠ y := ⟨hy, hxy⟩
          refine ⟨rfl, ?_, ?_⟩
          · rw [if_neg hxm, if_pos hcond, mem_classRemove]
            exact ⟨by simp, hxy⟩
          · rw [if_neg hxm, if_pos hcond]
            simp [mem_classRemove]

lemma runClasses_preserves (x y : String)
    (hx : x ≠ "") (hy : y ≠ "") (hxy : x ≠ y) :
    ∀ (vs : List String) (s : ClassState), classInv x y s →
      (∀ v ∈ vs, v = x ∨ v = y) → classInv x y (runClasses s vs) := by
  intro vs
  induction vs with
  | nil => intro s hs _; exact hs
  | cons v vs ih =>
      intro s hs hvs
      have hstep : runClasses s (v :: vs) = runClasses (classStep s (some v)) vs := rfl
      rw [hstep]
      exact ih (classStep s (some v))
        (classStep_preserves x y v s hx hy hxy hs (hvs v (List.mem_cons_self v vs)))
        (fun v2 hv2 => hvs v2 (List.mem_cons_of_mem v hv2))

/-- Claim C8: for a node whose dynamic class producer alternates between the
non-empty strings x and y on successive dependency changes, after the first
production and after every subsequent re-run, exactly one of x and y is
present on the attachment element — never both and never neither. -/
theorem dynamic_class_exactly_one (x y : String) (init : List String) (v0 : String)
    (vs : List String)
    (hx : x ≠ "") (hy : y ≠ "") (hxy : x ≠ y)
    (hix : x ∉ init) (hiy : y ∉ init)
    (hv0 : v0 = x ∨ v0 = y) (hvs : ∀ v ∈ vs, v = x ∨ v = y) :
    exactlyOneClass x y (runClasses ⟨init, none⟩ (v0 :: vs)).classList := by
  have hstep : runClasses (⟨init, none⟩ : ClassState) (v0 :: vs)
      = runClasses (classStep ⟨init, none⟩ (some v0)) vs := rfl
  rw [hstep]
  have hinv := runClasses_preserves x y hx hy hxy vs
    (classStep ⟨init, none⟩ (some v0))
    (classStep_establishes x y v0 init hxy hix hiy hv0) hvs
  cases hinv with
  | inl h => exact Or.inl ⟨h.2.1, h.2.2⟩
  | inr h => exact Or.inr ⟨h.2.1, h.2.2⟩

theorem dynamic_class_exactly_one_witness :
    (("x" : String) ≠ "" ∧ ("y" : String) ≠ "" ∧ ("x" : String) ≠ "y" ∧
     ("x" : String) ∉ (["base"] : List String) ∧ ("y" : String) ∉ (["base"] : List String) ∧
     (("x" : String) = "x" ∨ ("x" : String) = "y") ∧
     (∀ v ∈ (["y", "x", "y"] : List String), v = "x" ∨ v = "y")) ∧
    exactlyOneClass "x" "y" (runClasses ⟨["base"], none⟩ ("x" :: ["y", "x", "y"])).classList :=
  ⟨⟨by decide, by decide, by decide, by decide, by decide, Or.inl rfl, by decide⟩,
   dynamic_class_exactly_one "x" "y" ["base"] "x" ["y", "x", "y"]
     (by decide) (by decide) (by decide) (by decide) (by decide) (Or.inl rfl) (by decide)⟩

/-!
Tag-path parsing and chain building
===================================
`createComponent`'s inner `parseEmmet` (`src/src/lib.ts` lines 84-108)
splits the tag-path on `>` and matches each part against the regex
`(\w+)?(?:#([\w-]+))?(?:\.([\w-.]+))?` anchored at the start of the part
(the regex always matches at position 0 because every group is optional).
An undefined tag capture defaults to `"div"`; a captured class string is
split on `.` to become the element's classes.  Each segment's element is
appended to the previous one; the pair returned is the outermost element
and the innermost (current) element, the attachment point.
-/

def isWordChar (ch : Char) : Bool := ch.isAlphanum || ch = '_'

def isIdChar (ch : Char) : Bool := isWordChar ch || ch = '-'

def isClsChar (ch : Char) : Bool := isWordChar ch || ch = '-' || ch = '.'

/-- JS `String.split` with a one-character separator. -/
def splitChar (sep : Char) (cs : List Char) : List (List Char) :=
  cs.foldr
    (fun ch acc =>
      if ch = sep then [] :: acc
      else
        match acc with
        | g :: gs => (ch :: g) :: gs
        | [] => [[ch]])
    [[]]

/-- The regex match on one `>`-separated part: the three captures
(tag, id, classes), a failed capture rendered as the empty list. -/
def parsePart (cs : List Char) : List Char × List Char × List Char :=
  let tag := cs.takeWhile isWordChar
  let rest1 := cs.dropWhile isWordChar
  let idAndRest :=
    match rest1 with
    | '#' :: r =>
        let idc := r.takeWhile isIdChar
        if idc.isEmpty then (([] : List Char), rest1) else (idc, r.dropWhile isIdChar)
    | _ => (([] : List Char), rest1)
  let cls :=
    match idAndRest.2 with
    | '.' :: r => r.takeWhile isClsChar
    | _ => ([] : List Char)
  (tag, idAndRest.1, cls)

/-- One materialized segment: `document.createElement(tag)` with the id and
the dot-split classes applied (`tag = "div"` when the capture is empty, the
id and className left untouched when their captures are empty). -/
structure Seg where
  tag : String
  idAttr : String
  classes : List String
deriving DecidableEq

def segOf (part : List Char) : Seg :=
  let p := parsePart part
  { tag := if p.1.isEmpty then "div" else String.mk p.1,
    idAttr := String.mk p.2.1,
    classes := if p.2.2.isEmpty then [] else (splitChar '.' p.2.2).map String.mk }

/-- `parseEmmet` up to the chain-building loop: the list of segments, in
outermost-to-innermost order. -/
def parseEmmet (input : String) : List Seg :=
  (splitChar '>' input.toList).map segOf

/-- A node of the output tree. -/
inductive DomTree where
  | node : Seg → List DomTree → DomTree

/-- The chain the loop materializes, with `extra` the children later appended
at the attachment point (the innermost element). -/
def chainWith : List Seg → List DomTree → Option DomTree
  | [], _ => none
  | [s], extra => some (DomTree.node s extra)
  | s :: s2 :: rest, extra =>
      match chainWith (s2 :: rest) extra with
      | some child => some (DomTree.node s [child])
      | none => none

/-- The root element returned by the builder. -/
def chainOf (segs : List Seg) : Option DomTree := chainWith segs []

/-- Claim C7: building from tag-path "div#root.a.b>span.c" yields a div with
id "root" and classes a and b whose only child is a span with class c; the
builder returns the outermost div, and the innermost span is the attachment
point where children are appended. -/
theorem emmet_chain_div_span :
    parseEmmet "div#root.a.b>span.c" =
      [⟨"div", "root", ["a", "b"]⟩, ⟨"span", "", ["c"]⟩] ∧
    chainOf (parseEmmet "div#root.a.b>span.c") =
      some (DomTree.node ⟨"div", "root", ["a", "b"]⟩
        [DomTree.node ⟨"span", "", ["c"]⟩ []]) ∧
    chainWith (parseEmmet "div#root.a.b>span.c") [DomTree.node ⟨"p", "", []⟩ []] =
      some (DomTree.node ⟨"div", "root", ["a", "b"]⟩
        [DomTree.node ⟨"span", "", ["c"]⟩ [DomTree.node ⟨"p", "", []⟩ []]]) :=
  ⟨rfl, rfl, rfl⟩

/-!
Remove-strategy conditional
===========================
`conditionalComponent` with the `"remove"` strategy (`src/src/lib.ts`
lines 219-269).  Its effect closes over `elm`, `placeholder` and
`parentNode`; we embed nodes as numeric identities allocated from a `fresh`
counter, the single eventual parent's child list as `children`, and
`parentNode` resolution as the latch `parentKnown` (a node's `parentNode`
is non-null exactly when the node is in `children`).  The `throw` in the
source is embedded as `Except.error`; every other path returns `Except.ok`.
The statements are transcribed in order, including the second
`if (!parentNode) throw` that follows the early-returning first-run branch.
-/

structure CState where
  elm : Option Nat
  placeholder : Option Nat
  parentKnown : Bool
  children : List Nat
  fresh : Nat
deriving DecidableEq

/-- DOM `replaceChild new old` on the parent's child list. -/
def replaceNode (ch : List Nat) (old new : Nat) : List Nat :=
  ch.map (fun n => if n = old then new else n)

/-- One run of the remove-strategy effect, with the value the condition
producer returned for this run. -/
def condStep (cond : Bool) (s : CState) : Except String CState :=
  let s :=
    if !s.parentKnown then
      match s.elm with
      | some e =>
          if e ∈ s.children then { s with parentKnown := true }
          else
            match s.placeholder with
            | some p => if p ∈ s.children then { s with parentKnown := true } else s
            | none => s
      | none =>
          match s.placeholder with
          | some p => if p ∈ s.children then { s with parentKnown := true } else s
          | none => s
    else s
  if !s.parentKnown then
    if cond then Except.ok { s with elm := some s.fresh, fresh := s.fresh + 1 }
    else Except.ok { s with placeholder := some s.fresh, fresh := s.fresh + 1 }
  else if !s.parentKnown then
    Except.error "Unable to find the parent node"
  else if cond then
    match s.placeholder with
    | some p =>
        if p ∈ s.children then
          Except.ok { s with elm := some s.fresh, fresh := s.fresh + 1,
                             children := replaceNode s.children p s.fresh,
                             placeholder := none }
        else Except.ok s
    | none => Except.ok s
  else
    match s.elm with
    | some e =>
        if e ∈ s.children then
          Except.ok { s with placeholder := some s.fresh, fresh := s.fresh + 1,
                             children := replaceNode s.children e s.fresh,
                             elm := none }
        else Except.ok s
    | none => Except.ok s

/-- The state of a freshly created remove-strategy conditional, before its
first effect run. -/
def cInit : CState := ⟨none, none, false, [], 0⟩

/-- The caller appends the returned node (component or placeholder) to a
parent; the parent's child list becomes exactly that node. -/
def attachReturned (s : CState) : CState :=
  match s.elm with
  | some e => { s with children := [e] }
  | none =>
      match s.placeholder with
      | some p => { s with children := [p] }
      | none => s

/-- The markers of this conditional that are currently in the tree. -/
def attachedMarkers (s : CState) : List Nat :=
  (s.elm.toList ++ s.placeholder.toList).filter (fun n => n ∈ s.children)

/-- Claim C3 (evaluation at the failing input): with the remove strategy,
the first run under condition false creates a placeholder that is never
attached; when a dependency change then makes the placeholder-to-component
substitution due, the parent cannot be resolved, yet the operation does not
raise: it silently re-takes the first-run branch and allocates a fresh
component, returning normally.  The raise guarding an unresolved parent is
unreachable. -/
theorem cond_remove_unresolved_parent_no_raise :
    condStep false cInit = Except.ok ⟨none, some 0, false, [], 1⟩ ∧
    condStep true ⟨none, some 0, false, [], 1⟩ =
      Except.ok ⟨some 1, some 0, false, [], 2⟩ := by
  exact ⟨rfl, rfl⟩

/-- Run the effect once per dependency change, with the condition values of
the successive runs; `none` when a run raised. -/
def condRun : List Bool → CState → Option (List CState)
  | [], _ => some []
  | c :: cs, s =>
      match condStep c s with
      | Except.ok s2 =>
          match condRun cs s2 with
          | some l => some (s2 :: l)
          | none => none
      | Except.error _ => none

/-- Claim C9: for an attached remove-strategy conditional whose condition
starts false and is then toggled true, false, true, false, at every point
the tree contains exactly one live marker — the built component node or a
placeholder comment, never both and never neither. -/
theorem cond_remove_single_live_marker :
    condStep false cInit = Except.ok ⟨none, some 0, false, [], 1⟩ ∧
    attachReturned ⟨none, some 0, false, [], 1⟩ = ⟨none, some 0, false, [0], 1⟩ ∧
    condRun [true, false, true, false] ⟨none, some 0, false, [0], 1⟩ =
      some [⟨some 1, none, true, [1], 2⟩, ⟨none, some 2, true, [2], 3⟩,
            ⟨some 3, none, true, [3], 4⟩, ⟨none, some 4, true, [4], 5⟩] ∧
    attachedMarkers ⟨none, some 0, false, [0], 1⟩ = [0] ∧
    (⟨none, some 0, false, [0], 1⟩ : CState).children = [0] ∧
    attachedMarkers ⟨some 1, none, true, [1], 2⟩ = [1] ∧
    (⟨some 1, none, true, [1], 2⟩ : CState).children = [1] ∧
    attachedMarkers ⟨none, some 2, true, [2], 3⟩ = [2] ∧
    (⟨none, some 2, true, [2], 3⟩ : CState).children = [2] ∧
    attachedMarkers ⟨some 3, none, true, [3], 4⟩ = [3] ∧
    (⟨some 3, none, true, [3], 4⟩ : CState).children = [3] ∧
    attachedMarkers ⟨none, some 4, true, [4], 5⟩ = [4] ∧
    (⟨none, some 4, true, [4], 5⟩ : CState).children = [4] := by
  exact ⟨rfl, rfl, rfl, rfl, rfl, rfl, rfl, rfl, rfl, rfl, rfl, rfl, rfl⟩

/-!
List reconciler
===============
`listComponent` from `src/unnamed/part_000` (lines 271-368).  Items are
keyed by object identity; we embed an item as a numeric identity and its
current structural serialization (`JSON.stringify`) as a valuation
`val : Nat -> String` giving each identity's fingerprint during one pass.
A record of the item map holds the stored fingerprint `fid`, the rendered
node (a numeric node identity allocated from `freshNode`), the item's
private cell (allocated from `freshCell`) and the last stored position.
`renderItem` is embedded as allocation of a fresh node (appended to the
`renders` log); invoking a record's `setter` appends to `setterLog` and
updates the cell store (the written value is the item reference itself,
which `createSignal(item)` captured at creation).  `children` is the
resolved parent's childNodes; `parentNode?.` operations are skipped while
`parentKnown` is false.  DOM `insertBefore`/`appendChild` move a node that
is already in the tree, which `List.erase` before re-insertion mirrors.
-/

structure LRec where
  fid : String
  element : Nat
  setter : Nat
  pos : Nat
deriving DecidableEq

structure LState where
  itemMap : List (Nat × LRec)
  parentKnown : Bool
  children : List Nat
  cells : List (Nat × Nat)
  setterLog : List (Nat × Nat)
  renders : List Nat
  freshNode : Nat
  freshCell : Nat
  refElm : Option Nat
deriving DecidableEq

/-- `Map.get`. -/
def lookupMap : List (Nat × LRec) → Nat → Option LRec
  | [], _ => none
  | kr :: rest, k => if kr.1 = k then some kr.2 else lookupMap rest k

/-- `Map.set`: replace in place if the key exists, append otherwise. -/
def setMap : List (Nat × LRec) → Nat → LRec → List (Nat × LRec)
  | [], k, v => [(k, v)]
  | kr :: rest, k, v => if kr.1 = k then (kr.1, v) :: rest else kr :: setMap rest k v

/-- A cell write through a record's captured setter. -/
def cellWrite : List (Nat × Nat) → Nat → Nat → List (Nat × Nat)
  | [], _, _ => []
  | kv :: rest, k, v => if kv.1 = k then (kv.1, v) :: rest else kv :: cellWrite rest k v

/-- Insert `e` immediately before the first occurrence of `t` (DOM
`insertBefore` after `e` has been detached; `t` is a live child in every
reconciliation the source performs, the append case totalizes). -/
def insBefore : List Nat → Nat → Nat → List Nat
  | [], e, _ => [e]
  | x :: xs, e, t => if x = t then e :: x :: xs else x :: insBefore xs e t

/-- Lazy parent discovery at the top of each pass (part_000 lines 291-303):
a still-attached reference comment is preferred and removed once used;
otherwise the first tracked record's element is probed. -/
def resolveParent (s : LState) : LState :=
  if s.parentKnown then s
  else
    match s.refElm with
    | some r =>
        if r ∈ s.children then
          { s with parentKnown := true, children := s.children.erase r, refElm := none }
        else
          match s.itemMap.head? with
          | some kr =>
              if kr.2.element ∈ s.children then { s with parentKnown := true } else s
          | none => s
    | none =>
        match s.itemMap.head? with
        | some kr =>
            if kr.2.element ∈ s.children then { s with parentKnown := true } else s
        | none => s

/-- Removal phase (part_000 lines 306-311): every tracked identity absent
from the new collection is unmounted and its record dropped. -/
def removePhase (items : List Nat) (s : LState) : LState :=
  let removed := s.itemMap.filter (fun kr => !(decide (kr.1 ∈ items)))
  { s with
    itemMap := s.itemMap.filter (fun kr => decide (kr.1 ∈ items)),
    children :=
      if s.parentKnown then
        removed.foldl (fun ch kr => ch.erase kr.2.element) s.children
      else s.children }

/-- The add-or-update branch of the upsert (part_000 lines 315-335): a new
identity renders a fresh node and gets a private cell; an existing identity
whose fingerprint changed has the new value pushed through its setter and
its stored fingerprint and position updated; otherwise nothing happens.
Returns the state and the record `obj` the positioning block then uses. -/
def upsertBranch (val : Nat → String) (item i : Nat) (s : LState) : LState × LRec :=
  match lookupMap s.itemMap item with
  | none =>
      ({ s with cells := s.cells ++ [(s.freshCell, item)],
                renders := s.renders ++ [item],
                freshCell := s.freshCell + 1,
                freshNode := s.freshNode + 1,
                itemMap := setMap s.itemMap item ⟨val item, s.freshNode, s.freshCell, i⟩ },
       ⟨val item, s.freshNode, s.freshCell, i⟩)
  | some o =>
      if val item ≠ o.fid then
        ({ s with cells := cellWrite s.cells o.setter item,
                  setterLog := s.setterLog ++ [(o.setter, item)],
                  itemMap := setMap s.itemMap item ⟨val item, o.element, o.setter, i⟩ },
         ⟨val item, o.element, o.setter, i⟩)
      else (s, o)

/-- The DOM move inside the positioning block (part_000 lines 338-348):
find the node currently at index `i` of the parent's childNodes (none while
the parent is unresolved, since `parentNode?.childNodes ?? []` is empty) and
move the element before it, or append when there is none; both moves are
skipped while the parent is unresolved. -/
def domMove (i e : Nat) (s1 : LState) : LState :=
  if (if s1.parentKnown then s1.children else []).get? i ≠ some e then
    if s1.parentKnown then
      match (if s1.parentKnown then s1.children else []).get? i with
      | some t => { s1 with children := insBefore (s1.children.erase e) e t }
      | none => { s1 with children := s1.children.erase e ++ [e] }
    else s1
  else s1

/-- The positioning block (part_000 lines 337-352): move the node if it is
not already at its slot, then store the new position. -/
def positionUpdate (item i : Nat) (obj : LRec) (s1 : LState) : LState :=
  { domMove i obj.element s1 with
    itemMap := setMap (domMove i obj.element s1).itemMap item
      ⟨obj.fid, obj.element, obj.setter, i⟩ }

/-- Upsert of one item at index `i` (part_000 lines 314-353);
`isPositionChanged` is computed from the record as it stood before the
branch (`obj?.position !== i`, true for a new identity). -/
def upsertStep (val : Nat → String) (item i : Nat) (s : LState) : LState :=
  if (lookupMap s.itemMap item).map LRec.pos ≠ some i then
    positionUpdate item i (upsertBranch val item i s).2 (upsertBranch val item i s).1
  else (upsertBranch val item i s).1

/-- `currentItems.forEach((item, i) => ...)`. -/
def upsertAux (val : Nat → String) : List Nat → Nat → LState → LState
  | [], _, s => s
  | it :: rest, i, s => upsertAux val rest (i + 1) (upsertStep val it i s)

/-- One reconciliation pass of the list effect, with the collection the
items producer returned and each identity's current fingerprint. -/
def reconcilePass (val : Nat → String) (items : List Nat) (s : LState) : LState :=
  upsertAux val items 0 (removePhase items (resolveParent s))

/-- The state of a freshly created list before the first effect run. -/
def lInit : LState := ⟨[], false, [], [], [], [], 0, 0, none⟩

/-- The caller mounts the returned elements array: the parent's children
become exactly the tracked nodes, in map order. -/
def attachAll (s : LState) : LState :=
  { s with children := s.itemMap.map (fun kr => kr.2.element) }

/-- Fingerprints for three distinct items A = 0, B = 1, C = 2. -/
def valABC : Nat → String := fun n => if n = 0 then "A" else if n = 1 then "B" else "C"

/-- Claim C4: a mounted list [A,B,C] reordered to [C,A,B] keeps the same
three node objects, rebuilt zero times, as the parent's children in the new
order; a mounted list [A,B] changed to [A,C] has B's node removed and a
newly rendered node for C inserted at child index 1. -/
theorem list_reorder_and_replace :
    (reconcilePass valABC [2, 0, 1]
        (attachAll (reconcilePass valABC [0, 1, 2] lInit))).children = [2, 0, 1] ∧
    (reconcilePass valABC [2, 0, 1]
        (attachAll (reconcilePass valABC [0, 1, 2] lInit))).freshNode = 3 ∧
    (reconcilePass valABC [2, 0, 1]
        (attachAll (reconcilePass valABC [0, 1, 2] lInit))).renders = [0, 1, 2] ∧
    lookupMap (reconcilePass valABC [2, 0, 1]
        (attachAll (reconcilePass valABC [0, 1, 2] lInit))).itemMap 0 = some ⟨"A", 0, 0, 1⟩ ∧
    lookupMap (reconcilePass valABC [2, 0, 1]
        (attachAll (reconcilePass valABC [0, 1, 2] lInit))).itemMap 1 = some ⟨"B", 1, 1, 2⟩ ∧
    lookupMap (reconcilePass valABC [2, 0, 1]
        (attachAll (reconcilePass valABC [0, 1, 2] lInit))).itemMap 2 = some ⟨"C", 2, 2, 0⟩ ∧
    (reconcilePass valABC [0, 2]
        (attachAll (reconcilePass valABC [0, 1] lInit))).children = [0, 2] ∧
    lookupMap (reconcilePass valABC [0, 2]
        (attachAll (reconcilePass valABC [0, 1] lInit))).itemMap 1 = none ∧
    lookupMap (reconcilePass valABC [0, 2]
        (attachAll (reconcilePass valABC [0, 1] lInit))).itemMap 2 = some ⟨"C", 2, 2, 1⟩ ∧
    (reconcilePass valABC [0, 2]
        (attachAll (reconcilePass valABC [0, 1] lInit))).renders = [0, 1, 2] := by
  decide

/-! Helper lemmas about the list reconciler. -/

def keysOf (m : List (Nat × LRec)) : List Nat := m.map Prod.fst

/-- How many times an identity was rendered. -/
def renderCount (l : List Nat) (a : Nat) : Nat := (l.filter (fun x => x == a)).length

lemma renderCount_append (l t : List Nat) (a : Nat) :
    renderCount (l ++ t) a = renderCount l a + renderCount t a := by
  simp [renderCount, List.filter_append]

lemma renderCount_single_ne (b a : Nat) (h : b ≠ a) : renderCount [b] a = 0 := by
  have hbeq : (b == a) = false := by simpa using h
  simp [renderCount, List.filter, hbeq]

lemma lookup_setMap_self (m : List (Nat × LRec)) (k : Nat) (v : LRec) :
    lookupMap (setMap m k v) k = some v := by
  induction m with
  | nil => simp [setMap, lookupMap]
  | cons kr rest ih =>
      by_cases h : kr.1 = k
      · simp [setMap, lookupMap, h]
      · simp [setMap, lookupMap, h, ih]

lemma lookup_setMap_ne (m : List (Nat × LRec)) (k k2 : Nat) (v : LRec) (h : k ≠ k2) :
    lookupMap (setMap m k v) k2 = lookupMap m k2 := by
  induction m with
  | nil => simp [setMap, lookupMap, h]
  | cons kr rest ih =>
      by_cases hk : kr.1 = k
      · have hk2 : ¬ kr.1 = k2 := by rw [hk]; exact h
        simp [setMap, lookupMap, hk, hk2, h]
      · by_cases hk2 : kr.1 = k2
        · simp [setMap, lookupMap, hk, hk2, Ne.symm h]
        · simp [setMap, lookupMap, hk, hk2, ih]

lemma keysOf_cons (kr : Nat × LRec) (rest : List (Nat × LRec)) :
    keysOf (kr :: rest) = kr.1 :: keysOf rest := rfl

lemma mem_keys_setMap (m : List (Nat × LRec)) (k : Nat) (v : LRec) (k2 : Nat)
    (h : k2 ∈ keysOf (setMap m k v)) : k2 ∈ keysOf m ∨ k2 = k := by
  induction m with
  | nil =>
      simp [setMap, keysOf] at h
      exact Or.inr h
  | cons kr rest ih =>
      by_cases hk : kr.1 = k
      · rw [show setMap (kr :: rest) k v = (kr.1, v) :: rest from by simp [setMap, hk]] at h
        rw [keysOf_cons] at h
        rcases List.mem_cons.mp h with h1 | h1
        · exact Or.inl (by rw [keysOf_cons, h1]; exact List.mem_cons_self _ _)
        · exact Or.inl (by rw [keysOf_cons]; exact List.mem_cons_of_mem kr.1 h1)
      · rw [show setMap (kr :: rest) k v = kr :: setMap rest k v from by simp [setMap, hk]] at h
        rw [keysOf_cons] at h
        rcases List.mem_cons.mp h with h1 | h1
        · exact Or.inl (by rw [keysOf_cons]; exact List.mem_cons.mpr (Or.inl h1))
        · rcases ih h1 with h2 | h2
          · exact Or.inl (by rw [keysOf_cons]; exact List.mem_cons_of_mem kr.1 h2)
          · exact Or.inr h2

lemma nodup_keys_setMap (m : List (Nat × LRec)) (k : Nat) (v : LRec)
    (h : (keysOf m).Nodup) : (keysOf (setMap m k v)).Nodup := by
  induction m with
  | nil => simp [setMap, keysOf]
  | cons kr rest ih =>
      rw [keysOf_cons] at h
      have hhead := (List.nodup_cons.mp h).1
      have htail := (List.nodup_cons.mp h).2
      by_cases hk : kr.1 = k
      · rw [show setMap (kr :: rest) k v = (kr.1, v) :: rest from by simp [setMap, hk]]
        rw [show keysOf ((kr.1, v) :: rest) = kr.1 :: keysOf rest from rfl]
        exact List.nodup_cons.mpr ⟨hhead, htail⟩
      · rw [show setMap (kr :: rest) k v = kr :: setMap rest k v from by simp [setMap, hk]]
        rw [keysOf_cons]
        refine List.nodup_cons.mpr ⟨?_, ih htail⟩
        intro hmem
        rcases mem_keys_setMap rest k v kr.1 hmem with h2 | h2
        · exact hhead h2
        · exact hk h2

lemma domMove_eq (i e : Nat) (s1 : LState) :
    ∃ ch, domMove i e s1 = { s1 with children := ch } := by
  unfold domMove
  split
  · split
    · split
      · exact ⟨_, rfl⟩
      · exact ⟨_, rfl⟩
    · exact ⟨s1.children, rfl⟩
  · exact ⟨s1.children, rfl⟩

lemma domMove_itemMap (i e : Nat) (s1 : LState) :
    (domMove i e s1).itemMap = s1.itemMap := by
  obtain ⟨ch, h⟩ := domMove_eq i e s1
  rw [h]

lemma domMove_setterLog (i e : Nat) (s1 : LState) :
    (domMove i e s1).setterLog = s1.setterLog := by
  obtain ⟨ch, h⟩ := domMove_eq i e s1
  rw [h]

lemma domMove_renders (i e : Nat) (s1 : LState) :
    (domMove i e s1).renders = s1.renders := by
  obtain ⟨ch, h⟩ := domMove_eq i e s1
  rw [h]

lemma positionUpdate_itemMap (item i : Nat) (obj : LRec) (s1 : LState) :
    (positionUpdate item i obj s1).itemMap =
      setMap s1.itemMap item ⟨obj.fid, obj.element, obj.setter, i⟩ := by
  unfold positionUpdate
  rw [domMove_itemMap]

lemma positionUpdate_setterLog (item i : Nat) (obj : LRec) (s1 : LState) :
    (positionUpdate item i obj s1).setterLog = s1.setterLog := by
  unfold positionUpdate
  exact domMove_setterLog i obj.element s1

lemma positionUpdate_renders (item i : Nat) (obj : LRec) (s1 : LState) :
    (positionUpdate item i obj s1).renders = s1.renders := by
  unfold positionUpdate
  exact domMove_renders i obj.element s1

lemma upsertBranch_none (val : Nat → String) (item i : Nat) (s : LState)
    (hobj : lookupMap s.itemMap item = none) :
    upsertBranch val item i s =
      ({ s with cells := s.cells ++ [(s.freshCell, item)],
                renders := s.renders ++ [item],
                freshCell := s.freshCell + 1,
                freshNode := s.freshNode + 1,
                itemMap := setMap s.itemMap item ⟨val item, s.freshNode, s.freshCell, i⟩ },
       ⟨val item, s.freshNode, s.freshCell, i⟩) := by
  unfold upsertBranch
  rw [hobj]

lemma upsertBranch_update (val : Nat → String) (item i : Nat) (s : LState) (o : LRec)
    (hobj : lookupMap s.itemMap item = some o) (hf : val item ≠ o.fid) :
    upsertBranch val item i s =
      ({ s with cells := cellWrite s.cells o.setter item,
                setterLog := s.setterLog ++ [(o.setter, item)],
                itemMap := setMap s.itemMap item ⟨val item, o.element, o.setter, i⟩ },
       ⟨val item, o.element, o.setter, i⟩) := by
  unfold upsertBranch
  rw [hobj]
  simp only [if_pos hf]

lemma upsertBranch_same (val : Nat → String) (item i : Nat) (s : LState) (o : LRec)
    (hobj : lookupMap s.itemMap item = some o) (hf : val item = o.fid) :
    upsertBranch val item i s = (s, o) := by
  unfold upsertBranch
  rw [hobj]
  simp only [if_neg (fun hne => hne hf : ¬ val item ≠ o.fid)]

lemma upsertStep_pos_changed (val : Nat → String) (item i : Nat) (s : LState)
    (h : (lookupMap s.itemMap item).map LRec.pos ≠ some i) :
    upsertStep val item i s =
      positionUpdate item i (upsertBranch val item i s).2 (upsertBranch val item i s).1 := by
  unfold upsertStep
  rw [if_pos h]

lemma upsertStep_pos_same (val : Nat → String) (item i : Nat) (s : LState)
    (h : ¬ (lookupMap s.itemMap item).map LRec.pos ≠ some i) :
    upsertStep val item i s = (upsertBranch val item i s).1 := by
  unfold upsertStep
  rw [if_neg h]

/-- The self-update fact: an already tracked identity whose fingerprint
changed keeps its node and setter, gets the new fingerprint and position
stored, has the new value pushed through its setter, and is not re-rendered. -/
lemma upsertStep_update (val : Nat → String) (item i : Nat) (s : LState) (o : LRec)
    (hobj : lookupMap s.itemMap item = some o) (hf : val item ≠ o.fid) :
    lookupMap (upsertStep val item i s).itemMap item =
      some ⟨val item, o.element, o.setter, i⟩ ∧
    (upsertStep val item i s).setterLog = s.setterLog ++ [(o.setter, item)] ∧
    (upsertStep val item i s).renders = s.renders := by
  have hbr := upsertBranch_update val item i s o hobj hf
  by_cases hpos : (lookupMap s.itemMap item).map LRec.pos ≠ some i
  · rw [upsertStep_pos_changed val item i s hpos, hbr]
    refine ⟨?_, ?_, ?_⟩
    · rw [positionUpdate_itemMap]
      exact lookup_setMap_self _ _ _
    · rw [positionUpdate_setterLog]
    · rw [positionUpdate_renders]
  · rw [upsertStep_pos_same val item i s hpos, hbr]
    refine ⟨?_, rfl, rfl⟩
    exact lookup_setMap_self _ _ _

/-- Frame: upserting a different identity leaves this identity's record
untouched, only appends to the setter log, and does not render this
identity. -/
lemma upsertStep_frame (val : Nat → String) (item2 i item : Nat) (s : LState)
    (hne : item2 ≠ item) :
    lookupMap (upsertStep val item2 i s).itemMap item = lookupMap s.itemMap item ∧
    (∃ tl, (upsertStep val item2 i s).setterLog = s.setterLog ++ tl) ∧
    renderCount (upsertStep val item2 i s).renders item = renderCount s.renders item := by
  have hbr1 :
      lookupMap (upsertBranch val item2 i s).1.itemMap item = lookupMap s.itemMap item ∧
      (∃ tl, (upsertBranch val item2 i s).1.setterLog = s.setterLog ++ tl) ∧
      renderCount (upsertBranch val item2 i s).1.renders item =
        renderCount s.renders item := by
    cases hobj : lookupMap s.itemMap item2 with
    | none =>
        have h1 : (upsertBranch val item2 i s).1.itemMap
            = setMap s.itemMap item2 ⟨val item2, s.freshNode, s.freshCell, i⟩ := by
          rw [upsertBranch_none val item2 i s hobj]
        have h2 : (upsertBranch val item2 i s).1.setterLog = s.setterLog := by
          rw [upsertBranch_none val item2 i s hobj]
        have h3 : (upsertBranch val item2 i s).1.renders = s.renders ++ [item2] := by
          rw [upsertBranch_none val item2 i s hobj]
        refine ⟨?_, ⟨[], by rw [h2]; simp⟩, ?_⟩
        · rw [h1]
          exact lookup_setMap_ne _ _ _ _ hne
        · rw [h3, renderCount_append, renderCount_single_ne item2 item hne]
          omega
    | some o =>
        by_cases hf : val item2 ≠ o.fid
        · have h1 : (upsertBranch val item2 i s).1.itemMap
              = setMap s.itemMap item2 ⟨val item2, o.element, o.setter, i⟩ := by
            rw [upsertBranch_update val item2 i s o hobj hf]
          have h2 : (upsertBranch val item2 i s).1.setterLog
              = s.setterLog ++ [(o.setter, item2)] := by
            rw [upsertBranch_update val item2 i s o hobj hf]
          have h3 : (upsertBranch val item2 i s).1.renders = s.renders := by
            rw [upsertBranch_update val item2 i s o hobj hf]
          refine ⟨?_, ⟨[(o.setter, item2)], h2⟩, by rw [h3]⟩
          rw [h1]
          exact lookup_setMap_ne _ _ _ _ hne
        · rw [upsertBranch_same val item2 i s o hobj (not_not.mp hf)]
          exact ⟨rfl, ⟨[], by simp⟩, rfl⟩
  by_cases hpos : (lookupMap s.itemMap item2).map LRec.pos ≠ some i
  · rw [upsertStep_pos_changed val item2 i s hpos]
    refine ⟨?_, ?_, ?_⟩
    · rw [positionUpdate_itemMap, lookup_setMap_ne _ _ _ _ hne]
      exact hbr1.1
    · obtain ⟨tl, htl⟩ := hbr1.2.1
      exact ⟨tl, by rw [positionUpdate_setterLog]; exact htl⟩
    · rw [positionUpdate_renders]
      exact hbr1.2.2
  · rw [upsertStep_pos_same val item2 i s hpos]
    exact hbr1

lemma upsertAux_frame (val : Nat → String) (item : Nat) :
    ∀ (its : List Nat) (i0 : Nat) (s : LState), item ∉ its →
      lookupMap (upsertAux val its i0 s).itemMap item = lookupMap s.itemMap item ∧
      (∃ tl, (upsertAux val its i0 s).setterLog = s.setterLog ++ tl) ∧
      renderCount (upsertAux val its i0 s).renders item = renderCount s.renders item := by
  intro its
  induction its with
  | nil =>
      intro i0 s _
      exact ⟨rfl, ⟨[], by simp [upsertAux]⟩, rfl⟩
  | cons it rest ih =>
      intro i0 s hnot
      have hne : it ≠ item := by
        intro he
        rw [he] at hnot
        exact hnot (List.mem_cons_self item rest)
      have hrest : item ∉ rest := fun hm => hnot (List.mem_cons_of_mem it hm)
      have hstep := upsertStep_frame val it i0 item s hne
      have hrec := ih (i0 + 1) (upsertStep val it i0 s) hrest
      have hdef : upsertAux val (it :: rest) i0 s
          = upsertAux val rest (i0 + 1) (upsertStep val it i0 s) := rfl
      rw [hdef]
      refine ⟨hrec.1.trans hstep.1, ?_, hrec.2.2.trans hstep.2.2⟩
      obtain ⟨tl1, htl1⟩ := hstep.2.1
      obtain ⟨tl2, htl2⟩ := hrec.2.1
      exact ⟨tl1 ++ tl2, by rw [htl2, htl1, List.append_assoc]⟩

lemma upsertAux_pinpoint (val : Nat → String) (item : Nat) :
    ∀ (its : List Nat) (j i0 : Nat) (s : LState) (o : LRec),
      its.Nodup → its.get? j = some item →
      lookupMap s.itemMap item = some o → val item ≠ o.fid →
      lookupMap (upsertAux val its i0 s).itemMap item =
        some ⟨val item, o.element, o.setter, i0 + j⟩ ∧
      (o.setter, item) ∈ (upsertAux val its i0 s).setterLog ∧
      renderCount (upsertAux val its i0 s).renders item = renderCount s.renders item := by
  intro its
  induction its with
  | nil =>
      intro j i0 s o _ hget
      simp at hget
  | cons it rest ih =>
      intro j i0 s o hnd hget hlook hfid
      have hdef : upsertAux val (it :: rest) i0 s
          = upsertAux val rest (i0 + 1) (upsertStep val it i0 s) := rfl
      cases j with
      | zero =>
          have hit : item = it := by
            have h0 : it = item := by simpa using hget
            exact h0.symm
          subst hit
          have hrest : item ∉ rest := (List.nodup_cons.mp hnd).1
          have hupd := upsertStep_update val item i0 s o hlook hfid
          have hfr := upsertAux_frame val item rest (i0 + 1) (upsertStep val item i0 s) hrest
          refine ⟨?_, ?_, ?_⟩
          · rw [hdef, hfr.1, hupd.1]
            norm_num
          · obtain ⟨tl, htl⟩ := hfr.2.1
            rw [hdef, htl, hupd.2.1]
            simp
          · rw [hdef, hfr.2.2, hupd.2.2]
      | succ k =>
          have hget2 : rest.get? k = some item := by simpa using hget
          have hmem : item ∈ rest := List.get?_mem hget2
          have hne : it ≠ item := by
            intro he
            rw [he] at hnd
            exact (List.nodup_cons.mp hnd).1 hmem
          have hstep := upsertStep_frame val it i0 item s hne
          have hlook2 : lookupMap (upsertStep val it i0 s).itemMap item = some o := by
            rw [hstep.1]
            exact hlook
          have hrec := ih k (i0 + 1) (upsertStep val it i0 s) o
            (List.nodup_cons.mp hnd).2 hget2 hlook2 hfid
          have harith : i0 + 1 + k = i0 + (k + 1) := by omega
          refine ⟨?_, ?_, ?_⟩
          · rw [hdef, hrec.1, harith]
          · rw [hdef]
            exact hrec.2.1
          · rw [hdef, hrec.2.2, hstep.2.2]

lemma resolveParent_eq (s : LState) :
    ∃ pk ch re, resolveParent s = { s with parentKnown := pk, children := ch, refElm := re } := by
  unfold resolveParent
  repeat' split
  all_goals exact ⟨_, _, _, rfl⟩

lemma resolveParent_itemMap (s : LState) : (resolveParent s).itemMap = s.itemMap := by
  obtain ⟨pk, ch, re, h⟩ := resolveParent_eq s
  rw [h]

lemma resolveParent_setterLog (s : LState) : (resolveParent s).setterLog = s.setterLog := by
  obtain ⟨pk, ch, re, h⟩ := resolveParent_eq s
  rw [h]

lemma resolveParent_renders (s : LState) : (resolveParent s).renders = s.renders := by
  obtain ⟨pk, ch, re, h⟩ := resolveParent_eq s
  rw [h]

lemma removePhase_itemMap (items : List Nat) (s : LState) :
    (removePhase items s).itemMap = s.itemMap.filter (fun kr => decide (kr.1 ∈ items)) := rfl

lemma removePhase_setterLog (items : List Nat) (s : LState) :
    (removePhase items s).setterLog = s.setterLog := rfl

lemma removePhase_renders (items : List Nat) (s : LState) :
    (removePhase items s).renders = s.renders := rfl

lemma lookup_filter_mem (m : List (Nat × LRec)) (items : List Nat) (item : Nat)
    (h : item ∈ items) :
    lookupMap (m.filter (fun kr => decide (kr.1 ∈ items))) item = lookupMap m item := by
  induction m with
  | nil => rfl
  | cons kr rest ih =>
      by_cases hk : kr.1 = item
      · have hd : decide (kr.1 ∈ items) = true := by rw [hk]; exact decide_eq_true h
        simp [List.filter_cons, hd, lookupMap, hk, h]
      · by_cases hin : kr.1 ∈ items
        · simp [List.filter_cons, decide_eq_true hin, lookupMap, hk, ih]
        · simp [List.filter_cons, decide_eq_false hin, lookupMap, hk, ih]

/-- Claim C5: during a reconciliation pass, an item already tracked by
identity whose fingerprint differs from the stored one has its new value
written into its private per-item cell, its stored fingerprint and position
updated, while its mounted node is left in place: the tracked node identity
is preserved and no new node is rendered for that item. -/
theorem list_update_in_place (val : Nat → String) (items : List Nat) (s : LState)
    (i item : Nat) (o : LRec)
    (hnd : items.Nodup)
    (hget : items.get? i = some item)
    (hlook : lookupMap s.itemMap item = some o)
    (hfid : val item ≠ o.fid) :
    lookupMap (reconcilePass val items s).itemMap item =
      some ⟨val item, o.element, o.setter, i⟩ ∧
    (o.setter, item) ∈ (reconcilePass val items s).setterLog ∧
    renderCount (reconcilePass val items s).renders item =
      renderCount s.renders item := by
  have hmem : item ∈ items := List.get?_mem hget
  have hr2 : lookupMap (removePhase items (resolveParent s)).itemMap item = some o := by
    rw [removePhase_itemMap, lookup_filter_mem _ _ _ hmem, resolveParent_itemMap]
    exact hlook
  have hp := upsertAux_pinpoint val item items i 0
    (removePhase items (resolveParent s)) o hnd hget hr2 hfid
  have hdef : reconcilePass val items s
      = upsertAux val items 0 (removePhase items (resolveParent s)) := rfl
  refine ⟨?_, ?_, ?_⟩
  · rw [hdef, hp.1]
    norm_num
  · rw [hdef]
    exact hp.2.1
  · rw [hdef, hp.2.2, removePhase_renders, resolveParent_renders]

/-- Concrete state for the witness: one tracked item (identity 7) whose
stored fingerprint differs from the current one. -/
def lstateW : LState :=
  ⟨[(7, ⟨"old", 3, 4, 0⟩)], true, [3], [(4, 7)], [], [7], 8, 9, none⟩

def valNew : Nat → String := fun _ => "new"

theorem list_update_in_place_witness :
    (([7] : List Nat).Nodup ∧ ([7] : List Nat).get? 0 = some 7 ∧
     lookupMap lstateW.itemMap 7 = some ⟨"old", 3, 4, 0⟩ ∧
     valNew 7 ≠ LRec.fid ⟨"old", 3, 4, 0⟩) ∧
    (lookupMap (reconcilePass valNew [7] lstateW).itemMap 7 =
       some ⟨valNew 7, 3, 4, 0⟩ ∧
     ((4 : Nat), (7 : Nat)) ∈ (reconcilePass valNew [7] lstateW).setterLog ∧
     renderCount (reconcilePass valNew [7] lstateW).renders 7 =
       renderCount lstateW.renders 7) :=
  ⟨⟨by decide, by decide, by decide, by decide⟩,
   list_update_in_place valNew [7] lstateW 0 7 ⟨"old", 3, 4, 0⟩
     (by decide) (by decide) (by decide) (by decide)⟩

lemma upsertBranch_itemMap_shape (val : Nat → String) (item i : Nat) (s : LState) :
    (upsertBranch val item i s).1.itemMap = s.itemMap ∨
    ∃ r, (upsertBranch val item i s).1.itemMap = setMap s.itemMap item r := by
  cases hobj : lookupMap s.itemMap item with
  | none =>
      right
      exact ⟨_, by rw [upsertBranch_none val item i s hobj]⟩
  | some o =>
      by_cases hf : val item ≠ o.fid
      · right
        exact ⟨_, by rw [upsertBranch_update val item i s o hobj hf]⟩
      · left
        rw [upsertBranch_same val item i s o hobj (not_not.mp hf)]

lemma upsertStep_keys_sub (val : Nat → String) (item i : Nat) (s : LState) (k2 : Nat)
    (h : k2 ∈ keysOf (upsertStep val item i s).itemMap) :
    k2 ∈ keysOf s.itemMap ∨ k2 = item := by
  have hbr : k2 ∈ keysOf (upsertBranch val item i s).1.itemMap →
      k2 ∈ keysOf s.itemMap ∨ k2 = item := by
    intro h1
    rcases upsertBranch_itemMap_shape val item i s with hs | ⟨r, hs⟩
    · rw [hs] at h1
      exact Or.inl h1
    · rw [hs] at h1
      exact mem_keys_setMap _ _ _ _ h1
  by_cases hpos : (lookupMap s.itemMap item).map LRec.pos ≠ some i
  · rw [upsertStep_pos_changed val item i s hpos, positionUpdate_itemMap] at h
    rcases mem_keys_setMap _ _ _ _ h with h1 | h1
    · exact hbr h1
    · exact Or.inr h1
  · rw [upsertStep_pos_same val item i s hpos] at h
    exact hbr h

lemma upsertStep_keys_nodup (val : Nat → String) (item i : Nat) (s : LState)
    (h : (keysOf s.itemMap).Nodup) :
    (keysOf (upsertStep val item i s).itemMap).Nodup := by
  have hbr : (keysOf (upsertBranch val item i s).1.itemMap).Nodup := by
    rcases upsertBranch_itemMap_shape val item i s with hs | ⟨r, hs⟩
    · rw [hs]; exact h
    · rw [hs]; exact nodup_keys_setMap _ _ _ h
  by_cases hpos : (lookupMap s.itemMap item).map LRec.pos ≠ some i
  · rw [upsertStep_pos_changed val item i s hpos, positionUpdate_itemMap]
    exact nodup_keys_setMap _ _ _ hbr
  · rw [upsertStep_pos_same val item i s hpos]
    exact hbr

lemma upsertAux_keys_sub (val : Nat → String) :
    ∀ (its : List Nat) (i0 : Nat) (s : LState) (k2 : Nat),
      k2 ∈ keysOf (upsertAux val its i0 s).itemMap →
      k2 ∈ keysOf s.itemMap ∨ k2 ∈ its := by
  intro its
  induction its with
  | nil =>
      intro i0 s k2 h
      exact Or.inl h
  | cons it rest ih =>
      intro i0 s k2 h
      have hdef : upsertAux val (it :: rest) i0 s
          = upsertAux val rest (i0 + 1) (upsertStep val it i0 s) := rfl
      rw [hdef] at h
      rcases ih (i0 + 1) (upsertStep val it i0 s) k2 h with h1 | h1
      · rcases upsertStep_keys_sub val it i0 s k2 h1 with h2 | h2
        · exact Or.inl h2
        · exact Or.inr (by rw [h2]; exact List.mem_cons_self it rest)
      · exact Or.inr (List.mem_cons_of_mem it h1)

lemma upsertAux_keys_nodup (val : Nat → String) :
    ∀ (its : List Nat) (i0 : Nat) (s : LState),
      (keysOf s.itemMap).Nodup → (keysOf (upsertAux val its i0 s).itemMap).Nodup := by
  intro its
  induction its with
  | nil =>
      intro i0 s h
      exact h
  | cons it rest ih =>
      intro i0 s h
      exact ih (i0 + 1) (upsertStep val it i0 s) (upsertStep_keys_nodup val it i0 s h)

lemma keys_filter_sub (m : List (Nat × LRec)) (items : List Nat) (k : Nat)
    (h : k ∈ keysOf (m.filter (fun kr => decide (kr.1 ∈ items)))) : k ∈ items := by
  simp only [keysOf, List.mem_map, List.mem_filter] at h
  obtain ⟨kr, ⟨hm, hp⟩, hk⟩ := h
  rw [← hk]
  exact of_decide_eq_true hp

lemma keys_filter_nodup (m : List (Nat × LRec)) (items : List Nat)
    (h : (keysOf m).Nodup) :
    (keysOf (m.filter (fun kr => decide (kr.1 ∈ items)))).Nodup := by
  have hsub : List.Sublist (m.filter (fun kr => decide (kr.1 ∈ items))) m :=
    List.filter_sublist m
  exact List.Nodup.sublist (hsub.map Prod.fst) h

/-- Claim C6: after every reconciliation pass, the keys of the item-record
map form a subset of the identities present in the collection produced
during that pass, and each key maps to exactly one tracked record (the key
list stays duplicate-free). -/
theorem list_keys_subset_of_items (val : Nat → String) (items : List Nat) (s : LState)
    (hnd : (keysOf s.itemMap).Nodup) :
    ((keysOf (reconcilePass val items s).itemMap).all
        (fun k => decide (k ∈ items)) = true) ∧
    (keysOf (reconcilePass val items s).itemMap).Nodup := by
  have hdef : reconcilePass val items s
      = upsertAux val items 0 (removePhase items (resolveParent s)) := rfl
  have hrm : (removePhase items (resolveParent s)).itemMap
      = (resolveParent s).itemMap.filter (fun kr => decide (kr.1 ∈ items)) :=
    removePhase_itemMap items (resolveParent s)
  constructor
  · rw [List.all_eq_true]
    intro k hk
    rw [hdef] at hk
    rcases upsertAux_keys_sub val items 0 (removePhase items (resolveParent s)) k hk
      with h1 | h1
    · rw [hrm] at h1
      exact decide_eq_true (keys_filter_sub _ _ _ h1)
    · exact decide_eq_true h1
  · rw [hdef]
    refine upsertAux_keys_nodup val items 0 _ ?_
    rw [hrm]
    refine keys_filter_nodup _ _ ?_
    rw [resolveParent_itemMap]
    exact hnd

theorem list_keys_subset_of_items_witness :
    (keysOf lstateW.itemMap).Nodup ∧
    (((keysOf (reconcilePass valNew [7, 8] lstateW).itemMap).all
        (fun k => decide (k ∈ ([7, 8] : List Nat))) = true) ∧
     (keysOf (reconcilePass valNew [7, 8] lstateW).itemMap).Nodup) :=
  ⟨by decide, list_keys_subset_of_items valNew [7, 8] lstateW (by decide)⟩
